import Mathlib

/-!
Shallow embedding of `Image Manipulation/ImageManipulation.py`.

The program builds three image effects on top of PIL: rounded corners
(`round_corners_no_cutoff`), a sharp outline border (`add_sharp_border`)
and a soft drop shadow (`add_shadow_no_cutoff`).  We embed RGBA rasters as
size-tagged pixel functions and translate each PIL primitive the program
calls to its exact integer semantics (Paste.c, AlphaComposite.c,
ImageChops.subtract, the rank filter behind `MaxFilter`).  The two
Gaussian blurs (`GaussianBlur(0.5)` on the border mask, `GaussianBlur(sigma)`
on the shadow mask) are floating-point library convolutions; the effects are
therefore parameterised over the blur function, and theorems that need a
property of the blur take it as an explicit hypothesis.
-/

attribute [local semireducible] Rat.add Rat.sub Rat.mul Rat.inv Rat.ofScientific

namespace ImageManipulation

/-- One RGBA pixel; every channel is intended to lie in `[0, 255]`. -/
structure Pix where
  r : ℕ
  g : ℕ
  b : ℕ
  a : ℕ
deriving DecidableEq

/-- The PIL image modes the program can receive (`convert("RGBA")` targets). -/
inductive Mode where
  | RGBA : Mode
  | RGB : Mode
deriving DecidableEq

/-- An image: a mode tag, a size, and a total pixel function (only the
values at coordinates `x < width`, `y < height` are meaningful). -/
structure Img where
  mode : Mode
  width : ℕ
  height : ℕ
  px : ℕ → ℕ → Pix

/-- A single-channel (PIL mode "L") coverage mask. -/
structure Mask where
  width : ℕ
  height : ℕ
  px : ℕ → ℕ → ℕ

/-- All four channels of a pixel are bytes. -/
def Pix.Wf (p : Pix) : Prop :=
  p.r ≤ 255 ∧ p.g ≤ 255 ∧ p.b ≤ 255 ∧ p.a ≤ 255

instance (p : Pix) : Decidable p.Wf := by
  unfold Pix.Wf; infer_instance

/-- Every in-range pixel of the image is made of bytes. -/
def Img.Wf (i : Img) : Prop :=
  ∀ x < i.width, ∀ y < i.height, (i.px x y).Wf

instance (i : Img) : Decidable i.Wf := by
  unfold Img.Wf; infer_instance

/-- Pixel-identity of two images: same mode, same size, and the same four
channel values at every in-range coordinate. -/
def Img.EqPix (i j : Img) : Prop :=
  i.mode = j.mode ∧ i.width = j.width ∧ i.height = j.height ∧
    ∀ x < i.width, ∀ y < i.height, i.px x y = j.px x y

instance (i j : Img) : Decidable (i.EqPix j) := by
  unfold Img.EqPix; infer_instance

/-- `convert("RGBA")` on one pixel: an RGB pixel gets an all-opaque alpha
channel, an RGBA pixel is kept as is. -/
def convertPix : Mode → Pix → Pix
  | Mode.RGBA, p => p
  | Mode.RGB, p => ⟨p.r, p.g, p.b, 255⟩

/-- `image.convert("RGBA")`. -/
def convertRGBA (i : Img) : Img :=
  ⟨Mode.RGBA, i.width, i.height, fun x y => convertPix i.mode (i.px x y)⟩

/-- `Image.new(mode, (w, h), color)`: a constant raster. -/
def Img.new (mo : Mode) (w h : ℕ) (c : Pix) : Img :=
  ⟨mo, w, h, fun _ _ => c⟩

/-- `dst.paste(src, (ox, oy))` (no mask): inside the pasted box the source
pixel (all four channels) replaces the destination pixel, elsewhere the
destination is kept.  PIL clips the box against the destination, which the
pixel-function representation gives for free. -/
def Img.paste (dst src : Img) (ox oy : ℤ) : Img :=
  { dst with
    px := fun x y =>
      if ox ≤ (x : ℤ) ∧ (x : ℤ) < ox + src.width ∧
          oy ≤ (y : ℤ) ∧ (y : ℤ) < oy + src.height then
        src.px ((x : ℤ) - ox).toNat ((y : ℤ) - oy).toNat
      else dst.px x y }

/-- `image.getchannel("A")`: the alpha band as an "L" mask. -/
def Img.getchannelA (i : Img) : Mask :=
  ⟨i.width, i.height, fun x y => (i.px x y).a⟩

/-- `image.putalpha(mask)`: replace the alpha band with the mask, keeping
the colour bands. -/
def Img.putalpha (i : Img) (m : Mask) : Img :=
  { i with px := fun x y => { i.px x y with a := m.px x y } }

/-- `Image.new("L", (w, h), 0)`: an all-zero coverage mask. -/
def Mask.new (w h : ℕ) : Mask :=
  ⟨w, h, fun _ _ => 0⟩

/-- Read a mask at signed coordinates, with zero outside the canvas (the
rank filter behind `MaxFilter` pads with zero via `image.expand`). -/
def Mask.getClip (m : Mask) (x y : ℤ) : ℕ :=
  if 0 ≤ x ∧ x < m.width ∧ 0 ≤ y ∧ y < m.height then m.px x.toNat y.toNat else 0

/-- `SHIFTFORDIV255` from PIL's C core: `((t >> 8) + t) >> 8`, the rounding
division of `t` (already offset by 128) by 255. -/
def shiftForDiv255 (t : ℕ) : ℕ :=
  (t / 256 + t) / 256

/-- `MULDIV255(a, b)` from PIL's C core: `round(a * b / 255)` computed as
`SHIFTFORDIV255(a * b + 128)`. -/
def muldiv255 (a b : ℕ) : ℕ :=
  shiftForDiv255 (a * b + 128)

/-- The `BLEND` macro of PIL's Paste.c for a paste through an "L" mask:
`MULDIV255(dst, 255 - m) + MULDIV255(src, m)`. -/
def blendL (d s m : ℕ) : ℕ :=
  muldiv255 d (255 - m) + muldiv255 s m

/-- `dst.paste(src, (ox, oy), mask)` on "L" images: inside the pasted box
each destination value is blended with the source value through the mask
value (Paste.c `paste_mask_L`); outside the box the destination is kept. -/
def Mask.pasteMask (dst src msk : Mask) (ox oy : ℤ) : Mask :=
  { dst with
    px := fun x y =>
      if ox ≤ (x : ℤ) ∧ (x : ℤ) < ox + src.width ∧
          oy ≤ (y : ℤ) ∧ (y : ℤ) < oy + src.height then
        blendL (dst.px x y)
          (src.px ((x : ℤ) - ox).toNat ((y : ℤ) - oy).toNat)
          (msk.px ((x : ℤ) - ox).toNat ((y : ℤ) - oy).toNat)
      else dst.px x y }

/-- `mask.filter(ImageFilter.MaxFilter(2 * b + 1))`: each value becomes the
maximum over the square window of Chebyshev radius `b`, with zero padding
outside the canvas (PIL expands the image by `size // 2` zero pixels and
then takes the window maximum). -/
def dilate (m : Mask) (b : ℕ) : Mask :=
  { m with
    px := fun x y =>
      (Finset.range (2 * b + 1)).sup fun i =>
        (Finset.range (2 * b + 1)).sup fun j =>
          m.getClip ((x : ℤ) + i - b) ((y : ℤ) + j - b) }

/-- Clamp an integer into the byte range, as PIL's `ImageChops` does. -/
def clampByte (z : ℤ) : ℕ :=
  (min 255 (max 0 z)).toNat

/-- `ImageChops.subtract(m1, m2)` with default scale and offset:
per-pixel `m1 - m2` clipped into `[0, 255]`. -/
def chopsSubtract (m1 m2 : Mask) : Mask :=
  ⟨m1.width, m1.height, fun x y => clampByte ((m1.px x y : ℤ) - (m2.px x y : ℤ))⟩

/-- One pixel of `Image.alpha_composite(bg, fg)` (the second image is
composited over the first), translated from PIL's AlphaComposite.c with
`PRECISION_BITS = 7`. -/
def overPix (bgp fgp : Pix) : Pix :=
  if fgp.a = 0 then bgp
  else
    let blend := bgp.a * (255 - fgp.a)
    let outa255 := fgp.a * 255 + blend
    let coef1 := fgp.a * 255 * 255 * 128 / outa255
    let coef2 := 255 * 128 - coef1
    { r := shiftForDiv255 (fgp.r * coef1 + bgp.r * coef2 + 16384) / 128
      g := shiftForDiv255 (fgp.g * coef1 + bgp.g * coef2 + 16384) / 128
      b := shiftForDiv255 (fgp.b * coef1 + bgp.b * coef2 + 16384) / 128
      a := shiftForDiv255 (outa255 + 128) }

/-- `Image.alpha_composite(bg, fg)`: the foreground `fg` is layered over
the background `bg` pixel by pixel; the result takes the background's
size and is RGBA. -/
def alphaComposite (bg fg : Img) : Img :=
  ⟨Mode.RGBA, bg.width, bg.height, fun x y => overPix (bg.px x y) (fg.px x y)⟩

/-- Membership in the ideal disc of radius `r` centred at `(cx, cy)`. -/
def inDisc (cx cy r x y : ℕ) : Prop :=
  ((x : ℤ) - cx) ^ 2 + ((y : ℤ) - cy) ^ 2 ≤ (r : ℤ) ^ 2

instance (cx cy r x y : ℕ) : Decidable (inDisc cx cy r x y) := by
  unfold inDisc; infer_instance

/-- The region filled by `ImageDraw.rounded_rectangle([0, 0, W, H], r)`:
the two axis strips of the rounded rectangle together with the four corner
quarter-discs (the draw coordinates are inclusive, so the shape spans the
bounding box `[0, W] × [0, H]`).  Corner membership uses the ideal circle
inequality; the program's claims only touch pixels far from the arc
boundary, where every rasterisation agrees. -/
def inRoundedRect (W H r x y : ℕ) : Prop :=
  (r ≤ x ∧ x + r ≤ W) ∨ (r ≤ y ∧ y + r ≤ H) ∨
    inDisc r r r x y ∨ inDisc (W - r) r r x y ∨
    inDisc r (H - r) r x y ∨ inDisc (W - r) (H - r) r x y

instance (W H r x y : ℕ) : Decidable (inRoundedRect W H r x y) := by
  unfold inRoundedRect; infer_instance

/-- The rounded-rectangle mask drawn on a blank "L" canvas with fill 255. -/
def roundedRectMask (W H r : ℕ) : Mask :=
  ⟨W, H, fun x y => if inRoundedRect W H r x y then 255 else 0⟩

/-- Steps 2–4 of `round_corners_no_cutoff`: the enlarged canvas filled with
the background colour, with the original pasted at `(r, r)`. -/
def roundCanvasOf (image : Img) (r : ℕ) (bg : Pix) : Img :=
  (Img.new Mode.RGBA (image.width + 2 * r) (image.height + 2 * r) bg).paste image r r

/-- `round_corners_no_cutoff(image, radius, background_color)`. -/
def round_corners_no_cutoff (image : Img) (radius : ℤ) (background_color : Pix) : Img :=
  if radius ≤ 0 then convertRGBA image
  else
    (roundCanvasOf (convertRGBA image) radius.toNat background_color).putalpha
      (roundedRectMask ((convertRGBA image).width + 2 * radius.toNat)
        ((convertRGBA image).height + 2 * radius.toNat) radius.toNat)

/-- Step 1 of `add_sharp_border`: the transparent canvas enlarged by the
border width on every side, with the original pasted at `(width, width)`. -/
def expandedOf (image : Img) (b : ℕ) : Img :=
  (Img.new Mode.RGBA (image.width + 2 * b) (image.height + 2 * b) ⟨0, 0, 0, 0⟩).paste
    image b b

/-- Step 2 of `add_sharp_border`: the alpha band of the expanded canvas. -/
def alphaOf (image : Img) (b : ℕ) : Mask :=
  (expandedOf image b).getchannelA

/-- Steps 3–4 of `add_sharp_border` before the softening blur: the window
maximum of the alpha band minus the alpha band (`ImageChops.subtract`). -/
def borderMaskOf (image : Img) (b : ℕ) : Mask :=
  chopsSubtract (dilate (alphaOf image b) b) (alphaOf image b)

/-- Step 5 of `add_sharp_border`: the solid colour layer whose alpha band
is the (softened) border mask.  `soft` stands for `GaussianBlur(0.5)`. -/
def borderLayerOf (image : Img) (color : Pix) (b : ℕ) (soft : Mask → Mask) : Img :=
  (Img.new Mode.RGBA (image.width + 2 * b) (image.height + 2 * b) color).putalpha
    (soft (borderMaskOf image b))

/-- `add_sharp_border(image, color, width)`, parameterised by the softening
blur `soft` (the library's `GaussianBlur(0.5)`).  Note the source guards
`width <= 0` before converting to RGBA, so that branch returns a copy of
the raw input. -/
def add_sharp_border (image : Img) (color : Pix) (width : ℤ) (soft : Mask → Mask) : Img :=
  if width ≤ 0 then image
  else
    alphaComposite (borderLayerOf (convertRGBA image) color width.toNat soft)
      (expandedOf (convertRGBA image) width.toNat)

/-- Python's `int()` on the rationals the shadow arithmetic produces:
truncation toward zero. -/
def pyInt (q : ℚ) : ℤ :=
  if 0 ≤ q then ⌊q⌋ else -⌊-q⌋

/-- `max(sigma - d, sigma, 0) + extra_padding` (left and top expansion). -/
def expandLeftQ (d : ℤ) (sigma : ℚ) (extra : ℤ) : ℚ :=
  max (max (sigma - (d : ℚ)) sigma) 0 + (extra : ℚ)

/-- `max(d, 0) + sigma + extra_padding` (right and bottom expansion). -/
def expandRightQ (d : ℤ) (sigma : ℚ) (extra : ℤ) : ℚ :=
  ((max d 0 : ℤ) : ℚ) + sigma + (extra : ℚ)

/-- `new_w = int(orig_w + expand_left + expand_right)`. -/
def shadowNewW (w : ℕ) (dx : ℤ) (sigma : ℚ) (extra : ℤ) : ℤ :=
  pyInt ((w : ℚ) + expandLeftQ dx sigma extra + expandRightQ dx sigma extra)

/-- `new_h = int(orig_h + expand_top + expand_bottom)`. -/
def shadowNewH (h : ℕ) (dy : ℤ) (sigma : ℚ) (extra : ℤ) : ℤ :=
  pyInt ((h : ℚ) + expandLeftQ dy sigma extra + expandRightQ dy sigma extra)

/-- Steps 2–3 of `add_shadow_no_cutoff`: the transparent canvas with the
original pasted at `(int(expand_left), int(expand_top))`. -/
def shadowCanvasOf (image : Img) (dx dy : ℤ) (sigma : ℚ) (extra : ℤ) : Img :=
  (Img.new Mode.RGBA (shadowNewW image.width dx sigma extra).toNat
      (shadowNewH image.height dy sigma extra).toNat ⟨0, 0, 0, 0⟩).paste
    image (pyInt (expandLeftQ dx sigma extra)) (pyInt (expandLeftQ dy sigma extra))

/-- Step 5 of `add_shadow_no_cutoff` before the blur: the blank "L" canvas
with the original's alpha band pasted at `(paste_x + dx, paste_y + dy)`
through itself as the mask. -/
def shadowMaskPre (image : Img) (dx dy : ℤ) (sigma : ℚ) (extra : ℤ) : Mask :=
  (Mask.new (shadowNewW image.width dx sigma extra).toNat
      (shadowNewH image.height dy sigma extra).toNat).pasteMask
    image.getchannelA image.getchannelA
    (pyInt (expandLeftQ dx sigma extra) + dx) (pyInt (expandLeftQ dy sigma extra) + dy)

/-- Step 7 of `add_shadow_no_cutoff`: the solid shadow-colour layer whose
alpha band is the blurred shadow mask.  `blur` stands for
`GaussianBlur(sigma)`. -/
def shadowLayerOf (image : Img) (shadow_color : Pix) (dx dy : ℤ) (sigma : ℚ)
    (extra : ℤ) (blur : Mask → Mask) : Img :=
  (Img.new Mode.RGBA (shadowNewW image.width dx sigma extra).toNat
      (shadowNewH image.height dy sigma extra).toNat shadow_color).putalpha
    (blur (shadowMaskPre image dx dy sigma extra))

/-- `add_shadow_no_cutoff(image, shadow_color, offset, sigma, extra_padding)`,
parameterised by the blur.  `Image.new` raises `ValueError` on a negative
dimension, the only failure the data flow can hit; otherwise the pasted
canvas is composited over the shadow layer. -/
def add_shadow_no_cutoff (image : Img) (shadow_color : Pix) (dx dy : ℤ)
    (sigma : ℚ) (extra : ℤ) (blur : Mask → Mask) : Except String Img :=
  if shadowNewW (convertRGBA image).width dx sigma extra < 0 ∨
      shadowNewH (convertRGBA image).height dy sigma extra < 0 then
    Except.error "ValueError"
  else
    Except.ok (alphaComposite
      (shadowLayerOf (convertRGBA image) shadow_color dx dy sigma extra blur)
      (shadowCanvasOf (convertRGBA image) dx dy sigma extra))

/-- Chebyshev distance at most `d` between two pixel coordinates. -/
def chebWithin (d : ℕ) (p q : ℕ × ℕ) : Prop :=
  p.1 ≤ q.1 + d ∧ q.1 ≤ p.1 + d ∧ p.2 ≤ q.2 + d ∧ q.2 ≤ p.2 + d

instance (d : ℕ) (p q : ℕ × ℕ) : Decidable (chebWithin d p q) := by
  unfold chebWithin; infer_instance

/-- Pixel-identity lifted to the fallible shadow result. -/
def exceptEqPix : Except String Img → Except String Img → Prop
  | Except.ok i, Except.ok j => i.EqPix j
  | Except.error s, Except.error t => s = t
  | _, _ => False

/-- A solid test raster. -/
def constImg (mo : Mode) (w h : ℕ) (p : Pix) : Img :=
  ⟨mo, w, h, fun _ _ => p⟩

/-- A 2×2 test raster. -/
def imgW1 : Img :=
  constImg Mode.RGBA 2 2 ⟨3, 4, 5, 6⟩

/-- A raster pixel-identical to `imgW1` in range but with a different pixel
function outside the canvas (so the two are not syntactically equal). -/
def imgW2 : Img :=
  ⟨Mode.RGBA, 2, 2, fun x y => if x < 2 ∧ y < 2 then ⟨3, 4, 5, 6⟩ else ⟨7, 7, 7, 7⟩⟩

end ImageManipulation

namespace ImageManipulation

/-- Decidable equality for fallible results over decidable components. -/
instance {e a : Type} [DecidableEq e] [DecidableEq a] : DecidableEq (Except e a) := fun u v =>
  match u, v with
  | Except.ok x, Except.ok y =>
    if h : x = y then isTrue (by rw [h]) else isFalse (fun hc => h (Except.ok.inj hc))
  | Except.error x, Except.error y =>
    if h : x = y then isTrue (by rw [h]) else isFalse (fun hc => h (Except.error.inj hc))
  | Except.ok _, Except.error _ => isFalse (fun hc => Except.noConfusion hc)
  | Except.error _, Except.ok _ => isFalse (fun hc => Except.noConfusion hc)

theorem eqPix_refl (i : Img) : i.EqPix i :=
  ⟨rfl, rfl, rfl, fun _ _ _ _ => rfl⟩

theorem convertRGBA_width (i : Img) : (convertRGBA i).width = i.width := rfl

theorem convertRGBA_height (i : Img) : (convertRGBA i).height = i.height := rfl

theorem convertRGBA_wf (i : Img) (h : i.Wf) : (convertRGBA i).Wf := by
  intro x hx y hy
  show (convertPix i.mode (i.px x y)).Wf
  have hpx := h x hx y hy
  cases i.mode <;> simp only [convertPix] <;>
    exact ⟨hpx.1, hpx.2.1, hpx.2.2.1, by first | exact hpx.2.2.2 | exact le_refl 255⟩

/-- Pasting with non-negative integer offsets recovers the source pixel. -/
theorem paste_px_int (dst src : Img) (ox oy : ℤ) (hox : 0 ≤ ox) (hoy : 0 ≤ oy)
    (x y : ℕ) (hx : x < src.width) (hy : y < src.height) :
    (dst.paste src ox oy).px (x + ox.toNat) (y + oy.toNat) = src.px x y := by
  show (if _ then _ else _) = _
  rw [if_pos]
  · congr 1 <;> omega
  · refine ⟨by omega, by omega, by omega, by omega⟩

/-- Pasting with natural offsets recovers the source pixel. -/
theorem paste_px_nat (dst src : Img) (r s : ℕ) (x y : ℕ)
    (hx : x < src.width) (hy : y < src.height) :
    (dst.paste src r s).px (x + r) (y + s) = src.px x y := by
  have h := paste_px_int dst src r s (by omega) (by omega) x y hx hy
  simpa using h

theorem clampByte_nonpos {z : ℤ} (h : z ≤ 0) : clampByte z = 0 := by
  unfold clampByte; omega

theorem clampByte_of_mem {z : ℤ} (h0 : 0 ≤ z) (h1 : z ≤ 255) : clampByte z = z.toNat := by
  unfold clampByte; omega

theorem clampByte_le : ∀ z : ℤ, clampByte z ≤ 255 := by
  intro z; unfold clampByte; omega

/-- A finite supremum of naturals is nonzero only if some term is. -/
theorem sup_ne_zero {s : Finset ℕ} {f : ℕ → ℕ} (h : s.sup f ≠ 0) :
    ∃ i ∈ s, f i ≠ 0 := by
  by_contra hc
  push_neg at hc
  exact h (Nat.le_zero.mp (Finset.sup_le fun i hi => Nat.le_zero.mpr (hc i hi)))

theorem getClip_in (m : Mask) (x y : ℕ) (hx : x < m.width) (hy : y < m.height) :
    m.getClip x y = m.px x y := by
  unfold Mask.getClip
  rw [if_pos ⟨by omega, by exact_mod_cast hx, by omega, by exact_mod_cast hy⟩]
  simp

theorem getClip_le (m : Mask) (hb : ∀ u < m.width, ∀ v < m.height, m.px u v ≤ 255)
    (x y : ℤ) : m.getClip x y ≤ 255 := by
  unfold Mask.getClip
  split
  · next h => exact hb _ (by omega) _ (by omega)
  · omega

theorem getClip_ne_zero (m : Mask) (x y : ℤ) (h : m.getClip x y ≠ 0) :
    0 ≤ x ∧ x < m.width ∧ 0 ≤ y ∧ y < m.height ∧ m.px x.toNat y.toNat ≠ 0 := by
  unfold Mask.getClip at h
  by_cases hc : 0 ≤ x ∧ x < (m.width : ℤ) ∧ 0 ≤ y ∧ y < (m.height : ℤ)
  · rw [if_pos hc] at h
    exact ⟨hc.1, hc.2.1, hc.2.2.1, hc.2.2.2, h⟩
  · rw [if_neg hc] at h
    exact absurd rfl h

/-- The dilated mask dominates the mask at every canvas pixel. -/
theorem le_dilate (m : Mask) (b : ℕ) (x y : ℕ) (hx : x < m.width) (hy : y < m.height) :
    m.px x y ≤ (dilate m b).px x y := by
  have hb : b ∈ Finset.range (2 * b + 1) := Finset.mem_range.mpr (by omega)
  have h2 := @Finset.le_sup ℕ ℕ _ _ (Finset.range (2 * b + 1))
    (fun j : ℕ => m.getClip ((x : ℤ) + b - b) ((y : ℤ) + j - b)) b hb
  have h1 := @Finset.le_sup ℕ ℕ _ _ (Finset.range (2 * b + 1))
    (fun i : ℕ => (Finset.range (2 * b + 1)).sup fun j =>
      m.getClip ((x : ℤ) + i - b) ((y : ℤ) + j - b)) b hb
  have h3 : m.px x y = m.getClip ((x : ℤ) + b - b) ((y : ℤ) + b - b) := by
    rw [show (x : ℤ) + b - b = (x : ℤ) by ring, show (y : ℤ) + b - b = (y : ℤ) by ring]
    exact (getClip_in m x y hx hy).symm
  show m.px x y ≤ (Finset.range (2 * b + 1)).sup fun i =>
    (Finset.range (2 * b + 1)).sup fun j => m.getClip ((x : ℤ) + i - b) ((y : ℤ) + j - b)
  rw [h3]
  exact le_trans h2 h1

/-- The dilated mask stays in the byte range when the mask does. -/
theorem dilate_le (m : Mask) (b : ℕ)
    (hb : ∀ u < m.width, ∀ v < m.height, m.px u v ≤ 255) (x y : ℕ) :
    (dilate m b).px x y ≤ 255 := by
  show (Finset.range (2 * b + 1)).sup _ ≤ 255
  exact Finset.sup_le fun i _ => Finset.sup_le fun j _ => getClip_le m hb _ _

/-- A nonzero dilated value comes from a nonzero mask value within
Chebyshev distance `b`. -/
theorem dilate_ne_zero (m : Mask) (b : ℕ) (x y : ℕ)
    (h : (dilate m b).px x y ≠ 0) :
    ∃ q : ℕ × ℕ, chebWithin b (x, y) q ∧ q.1 < m.width ∧ q.2 < m.height ∧
      m.px q.1 q.2 ≠ 0 := by
  have h0 : ((Finset.range (2 * b + 1)).sup fun i =>
      (Finset.range (2 * b + 1)).sup fun j =>
        m.getClip ((x : ℤ) + i - b) ((y : ℤ) + j - b)) ≠ 0 := h
  obtain ⟨i, hi, hne⟩ := sup_ne_zero h0
  obtain ⟨j, hj, hne2⟩ := sup_ne_zero hne
  obtain ⟨hx0, hxw, hy0, hyh, hpx⟩ := getClip_ne_zero m _ _ hne2
  rw [Finset.mem_range] at hi hj
  refine ⟨(((x : ℤ) + i - b).toNat, ((y : ℤ) + j - b).toNat), ?_, by omega, by omega, hpx⟩
  unfold chebWithin
  dsimp only
  omega

theorem chebWithin_refl (d : ℕ) (p : ℕ × ℕ) : chebWithin d p p := by
  unfold chebWithin
  omega

end ImageManipulation

namespace ImageManipulation

theorem pyInt_of_nonneg {q : ℚ} (h : 0 ≤ q) : pyInt q = ⌊q⌋ :=
  if_pos h

theorem expandLeftQ_nonneg (d : ℤ) (sigma : ℚ) (extra : ℤ) (he : 0 ≤ extra) :
    0 ≤ expandLeftQ d sigma extra := by
  unfold expandLeftQ
  have h1 : (0 : ℚ) ≤ max (max (sigma - (d : ℚ)) sigma) 0 := le_max_right _ _
  have h2 : (0 : ℚ) ≤ (extra : ℚ) := by exact_mod_cast he
  linarith

theorem expandRightQ_nonneg (d : ℤ) (sigma : ℚ) (extra : ℤ)
    (hs : 0 ≤ sigma) (he : 0 ≤ extra) : 0 ≤ expandRightQ d sigma extra := by
  unfold expandRightQ
  have h1 : (0 : ℤ) ≤ max d 0 := le_max_right _ _
  have h1q : (0 : ℚ) ≤ ((max d 0 : ℤ) : ℚ) := by exact_mod_cast h1
  have h2 : (0 : ℚ) ≤ (extra : ℚ) := by exact_mod_cast he
  linarith

theorem shadowNewW_eq_floor (w : ℕ) (dx : ℤ) (sigma : ℚ) (extra : ℤ)
    (hs : 0 ≤ sigma) (he : 0 ≤ extra) :
    shadowNewW w dx sigma extra =
      ⌊(w : ℚ) + expandLeftQ dx sigma extra + expandRightQ dx sigma extra⌋ ∧
    0 ≤ shadowNewW w dx sigma extra := by
  have hl := expandLeftQ_nonneg dx sigma extra he
  have hr := expandRightQ_nonneg dx sigma extra hs he
  have hw : (0 : ℚ) ≤ (w : ℚ) := Nat.cast_nonneg w
  have hq : (0 : ℚ) ≤ (w : ℚ) + expandLeftQ dx sigma extra + expandRightQ dx sigma extra := by
    linarith
  have heq : shadowNewW w dx sigma extra =
      ⌊(w : ℚ) + expandLeftQ dx sigma extra + expandRightQ dx sigma extra⌋ :=
    pyInt_of_nonneg hq
  refine ⟨heq, ?_⟩
  rw [heq]
  exact Int.le_floor.mpr (by exact_mod_cast hq)

/-- Every pixel of the raster, in range or not, is a byte pixel. -/
def Img.WfAll (i : Img) : Prop :=
  ∀ x y, (i.px x y).Wf

theorem paste_wfAll (dst src : Img) (ox oy : ℤ) (hd : dst.WfAll)
    (hs : ∀ u < src.width, ∀ v < src.height, (src.px u v).Wf) :
    (dst.paste src ox oy).WfAll := by
  intro x y
  unfold Img.paste
  dsimp only
  split
  · next h => exact hs _ (by omega) _ (by omega)
  · exact hd x y

theorem new_wfAll (mo : Mode) (w h : ℕ) (c : Pix) (hc : c.Wf) :
    (Img.new mo w h c).WfAll :=
  fun _ _ => hc

theorem expandedOf_wfAll (image : Img) (b : ℕ) (h : image.Wf) :
    (expandedOf image b).WfAll :=
  paste_wfAll _ _ _ _ (new_wfAll _ _ _ _ (by decide)) h

theorem shadowCanvasOf_wfAll (image : Img) (dx dy : ℤ) (sigma : ℚ) (extra : ℤ)
    (h : image.Wf) : (shadowCanvasOf image dx dy sigma extra).WfAll :=
  paste_wfAll _ _ _ _ (new_wfAll _ _ _ _ (by decide)) h

theorem alphaOf_le (image : Img) (b : ℕ) (h : image.Wf) :
    ∀ u v : ℕ, (alphaOf image b).px u v ≤ 255 :=
  fun u v => ((expandedOf_wfAll image b h) u v).2.2.2

theorem muldiv255_zero_left (b : ℕ) : muldiv255 0 b = 0 := by
  simp [muldiv255, shiftForDiv255]

theorem blendL_zero_dst (s m : ℕ) : blendL 0 s m = muldiv255 s m := by
  simp [blendL, muldiv255_zero_left]

set_option maxRecDepth 100000 in
theorem shift_channel_id : ∀ c < 256, shiftForDiv255 (c * 32640 + 16384) / 128 = c := by
  decide

theorem overPix_fgFull (bgp : Pix) (r g b : ℕ) (hr : r ≤ 255) (hg : g ≤ 255)
    (hb : b ≤ 255) : overPix bgp ⟨r, g, b, 255⟩ = ⟨r, g, b, 255⟩ := by
  unfold overPix
  rw [if_neg (by simp)]
  simp only [Pix.mk.injEq]
  norm_num
  exact ⟨shift_channel_id r (by omega), shift_channel_id g (by omega),
    shift_channel_id b (by omega), by norm_num [shiftForDiv255]⟩

theorem overPix_fgWf (bgp fgp : Pix) (hwf : fgp.Wf) (ha : fgp.a = 255) :
    overPix bgp fgp = fgp := by
  obtain ⟨r, g, b, a⟩ := fgp
  obtain ⟨h1, h2, h3, _⟩ := hwf
  dsimp only at ha
  subst ha
  exact overPix_fgFull bgp r g b h1 h2 h3

end ImageManipulation

namespace ImageManipulation

theorem convert_eqPix {i j : Img} (h : i.EqPix j) :
    (convertRGBA i).EqPix (convertRGBA j) := by
  obtain ⟨hm, hw, hh, hp⟩ := h
  refine ⟨rfl, hw, hh, ?_⟩
  intro x hx y hy
  show convertPix i.mode (i.px x y) = convertPix j.mode (j.px x y)
  rw [hm, hp x hx y hy]

theorem paste_congr (d s t : Img) (ox oy : ℤ) (hw : s.width = t.width)
    (hh : s.height = t.height)
    (hp : ∀ x < s.width, ∀ y < s.height, s.px x y = t.px x y) :
    d.paste s ox oy = d.paste t ox oy := by
  unfold Img.paste
  congr 1
  funext x y
  by_cases hc : ox ≤ (x : ℤ) ∧ (x : ℤ) < ox + t.width ∧
      oy ≤ (y : ℤ) ∧ (y : ℤ) < oy + t.height
  · rw [if_pos (by rw [hw, hh]; exact hc), if_pos hc]
    exact hp _ (by omega) _ (by omega)
  · rw [if_neg (by rw [hw, hh]; exact hc), if_neg hc]

theorem pasteMask_congr (d s t : Mask) (ox oy : ℤ) (hw : s.width = t.width)
    (hh : s.height = t.height)
    (hp : ∀ x < s.width, ∀ y < s.height, s.px x y = t.px x y) :
    d.pasteMask s s ox oy = d.pasteMask t t ox oy := by
  unfold Mask.pasteMask
  congr 1
  funext x y
  by_cases hc : ox ≤ (x : ℤ) ∧ (x : ℤ) < ox + t.width ∧
      oy ≤ (y : ℤ) ∧ (y : ℤ) < oy + t.height
  · rw [if_pos (by rw [hw, hh]; exact hc), if_pos hc]
    rw [hp _ (by omega) _ (by omega)]
  · rw [if_neg (by rw [hw, hh]; exact hc), if_neg hc]

theorem roundCanvasOf_congr {s t : Img} (hw : s.width = t.width)
    (hh : s.height = t.height)
    (hp : ∀ x < s.width, ∀ y < s.height, s.px x y = t.px x y) (r : ℕ) (bg : Pix) :
    roundCanvasOf s r bg = roundCanvasOf t r bg := by
  unfold roundCanvasOf
  rw [hw, hh]
  exact paste_congr _ s t _ _ hw hh hp

theorem expandedOf_congr {s t : Img} (hw : s.width = t.width)
    (hh : s.height = t.height)
    (hp : ∀ x < s.width, ∀ y < s.height, s.px x y = t.px x y) (b : ℕ) :
    expandedOf s b = expandedOf t b := by
  unfold expandedOf
  rw [hw, hh]
  exact paste_congr _ s t _ _ hw hh hp

theorem shadowCanvasOf_congr {s t : Img} (hw : s.width = t.width)
    (hh : s.height = t.height)
    (hp : ∀ x < s.width, ∀ y < s.height, s.px x y = t.px x y)
    (dx dy : ℤ) (sigma : ℚ) (extra : ℤ) :
    shadowCanvasOf s dx dy sigma extra = shadowCanvasOf t dx dy sigma extra := by
  unfold shadowCanvasOf
  rw [hw, hh]
  exact paste_congr _ s t _ _ hw hh hp

theorem shadowMaskPre_congr {s t : Img} (hw : s.width = t.width)
    (hh : s.height = t.height)
    (hp : ∀ x < s.width, ∀ y < s.height, s.px x y = t.px x y)
    (dx dy : ℤ) (sigma : ℚ) (extra : ℤ) :
    shadowMaskPre s dx dy sigma extra = shadowMaskPre t dx dy sigma extra := by
  unfold shadowMaskPre
  rw [hw, hh]
  refine pasteMask_congr _ _ _ _ _ hw hh ?_
  intro x hx y hy
  show (s.px x y).a = (t.px x y).a
  rw [hp x hx y hy]

end ImageManipulation

namespace ImageManipulation

/-- **C2**: for every image and radius `r > 0`, `round_corners_no_cutoff`
returns a buffer of exactly `(w + 2r, h + 2r)` whose colour channels inside
the pasted region at offset `(r, r)` are the original content.  The witness
checks the concrete 100×50 scenario (output 140×90, pixel (70,45) keeps the
original colour at alpha 255, pixel (0,0) has alpha 0). -/
theorem round_canvas_exact (image : Img) (radius : ℤ) (bg : Pix) (hr : 0 < radius) :
    (round_corners_no_cutoff image radius bg).width = image.width + 2 * radius.toNat ∧
    (round_corners_no_cutoff image radius bg).height = image.height + 2 * radius.toNat ∧
    ∀ x < image.width, ∀ y < image.height,
      ((round_corners_no_cutoff image radius bg).px (x + radius.toNat) (y + radius.toNat)).r
          = ((convertRGBA image).px x y).r ∧
      ((round_corners_no_cutoff image radius bg).px (x + radius.toNat) (y + radius.toNat)).g
          = ((convertRGBA image).px x y).g ∧
      ((round_corners_no_cutoff image radius bg).px (x + radius.toNat) (y + radius.toNat)).b
          = ((convertRGBA image).px x y).b := by
  unfold round_corners_no_cutoff
  rw [if_neg (by omega)]
  refine ⟨rfl, rfl, ?_⟩
  intro x hx y hy
  have hpaste : (roundCanvasOf (convertRGBA image) radius.toNat bg).px
      (x + radius.toNat) (y + radius.toNat) = (convertRGBA image).px x y := by
    unfold roundCanvasOf
    exact paste_px_nat _ _ _ _ x y hx hy
  refine ⟨?_, ?_, ?_⟩
  · show ((roundCanvasOf (convertRGBA image) radius.toNat bg).px
        (x + radius.toNat) (y + radius.toNat)).r = _
    exact congrArg Pix.r hpaste
  · show ((roundCanvasOf (convertRGBA image) radius.toNat bg).px
        (x + radius.toNat) (y + radius.toNat)).g = _
    exact congrArg Pix.g hpaste
  · show ((roundCanvasOf (convertRGBA image) radius.toNat bg).px
        (x + radius.toNat) (y + radius.toNat)).b = _
    exact congrArg Pix.b hpaste

/-- Witness for C2: the concrete scenario of the specification. -/
theorem round_canvas_exact_witness :
    (0 : ℤ) < 20 ∧
    (round_corners_no_cutoff (constImg Mode.RGBA 100 50 ⟨10, 20, 30, 255⟩) 20
      ⟨0, 0, 0, 0⟩).width = 140 ∧
    (round_corners_no_cutoff (constImg Mode.RGBA 100 50 ⟨10, 20, 30, 255⟩) 20
      ⟨0, 0, 0, 0⟩).height = 90 ∧
    (round_corners_no_cutoff (constImg Mode.RGBA 100 50 ⟨10, 20, 30, 255⟩) 20
      ⟨0, 0, 0, 0⟩).px 70 45 = ⟨10, 20, 30, 255⟩ ∧
    ((round_corners_no_cutoff (constImg Mode.RGBA 100 50 ⟨10, 20, 30, 255⟩) 20
      ⟨0, 0, 0, 0⟩).px 0 0).a = 0 :=
  ⟨by decide,
    (round_canvas_exact (constImg Mode.RGBA 100 50 ⟨10, 20, 30, 255⟩) 20 ⟨0, 0, 0, 0⟩
      (by decide)).1,
    (round_canvas_exact (constImg Mode.RGBA 100 50 ⟨10, 20, 30, 255⟩) 20 ⟨0, 0, 0, 0⟩
      (by decide)).2.1,
    by decide, by decide⟩

/-- **C3 (amended)**: `round_corners_no_cutoff` with radius 0 returns exactly
the RGBA-converted input, and `add_sharp_border` with width 0 returns the raw
input unchanged — which is pixel-identical to the RGBA-converted input only
when the input is already RGBA (third conjunct). -/
theorem zero_radius_zero_width_identity (image : Img) (bg c : Pix) (soft : Mask → Mask) :
    round_corners_no_cutoff image 0 bg = convertRGBA image ∧
    add_sharp_border image c 0 soft = image ∧
    (add_sharp_border (convertRGBA image) c 0 soft).EqPix (convertRGBA image) := by
  refine ⟨?_, ?_, ?_⟩
  · unfold round_corners_no_cutoff
    rw [if_pos le_rfl]
  · unfold add_sharp_border
    rw [if_pos le_rfl]
  · unfold add_sharp_border
    rw [if_pos le_rfl]
    exact eqPix_refl _

/-- Counterexample for C3 as stated: on an input in RGB mode,
`add_sharp_border` with width 0 returns a buffer still in RGB mode, which is
not pixel-identical (same mode) to the RGBA-converted input — the source
guards `width <= 0` before its `convert("RGBA")`. -/
theorem border_zero_mode_cx :
    (add_sharp_border (constImg Mode.RGB 1 1 ⟨5, 6, 7, 0⟩) ⟨0, 0, 0, 255⟩ 0 id).mode
        = Mode.RGB ∧
    (convertRGBA (constImg Mode.RGB 1 1 ⟨5, 6, 7, 0⟩)).mode = Mode.RGBA ∧
    Mode.RGB ≠ Mode.RGBA := by
  decide

/-- **C5**: for radius `r > 0` every output pixel of
`round_corners_no_cutoff` keeps the colour channels of the pasted canvas and
takes its alpha directly from the rounded-rectangle mask — the mask value
replaces whatever alpha the canvas had, it is not multiplied into it. -/
theorem round_replace_alpha (image : Img) (radius : ℤ) (bg : Pix)
    (hr : 0 < radius) (x y : ℕ) :
    (round_corners_no_cutoff image radius bg).px x y =
      { (roundCanvasOf (convertRGBA image) radius.toNat bg).px x y with
        a := (roundedRectMask ((convertRGBA image).width + 2 * radius.toNat)
              ((convertRGBA image).height + 2 * radius.toNat) radius.toNat).px x y } := by
  unfold round_corners_no_cutoff
  rw [if_neg (by omega)]
  rfl

/-- Witness for C5: a half-transparent source pixel (alpha 77) inside the
rounded region comes out fully opaque — the mask value 255 replaces it. -/
theorem round_replace_alpha_witness :
    (0 : ℤ) < 1 ∧
    (round_corners_no_cutoff (constImg Mode.RGBA 2 2 ⟨10, 20, 30, 77⟩) 1 ⟨0, 0, 0, 0⟩).px 1 1 =
      { (roundCanvasOf (convertRGBA (constImg Mode.RGBA 2 2 ⟨10, 20, 30, 77⟩)) 1
          ⟨0, 0, 0, 0⟩).px 1 1 with
        a := (roundedRectMask 4 4 1).px 1 1 } ∧
    ((round_corners_no_cutoff (constImg Mode.RGBA 2 2 ⟨10, 20, 30, 77⟩) 1
        ⟨0, 0, 0, 0⟩).px 1 1).a = 255 ∧
    ((constImg Mode.RGBA 2 2 ⟨10, 20, 30, 77⟩).px 1 1).a = 77 :=
  ⟨by decide,
    round_replace_alpha (constImg Mode.RGBA 2 2 ⟨10, 20, 30, 77⟩) 1 ⟨0, 0, 0, 0⟩ (by decide) 1 1,
    by decide, by decide⟩

end ImageManipulation

namespace ImageManipulation

theorem alphaOf_outside (image : Img) (b x y : ℕ)
    (h : ¬(x < image.width + 2 * b ∧ y < image.height + 2 * b)) :
    (alphaOf image b).px x y = 0 := by
  unfold alphaOf Img.getchannelA expandedOf Img.paste Img.new
  dsimp only
  rw [if_neg (by omega)]

/-- **C6 (amended)**: before blurring, the shadow mask is the blank canvas
with the alpha band pasted at `(paste_x + dx, paste_y + dy)` through itself
as the mask; since a masked paste blends, each in-box value is
`blendL 0 a a = MULDIV255(a, a)` — equal to the source coverage `a` when
`a` is 0 or 255, but not in general (see the counterexample). -/
theorem shadow_mask_blend (image : Img) (dx dy : ℤ) (sigma : ℚ) (extra : ℤ) (x y : ℕ) :
    (shadowMaskPre (convertRGBA image) dx dy sigma extra).px x y =
      (if pyInt (expandLeftQ dx sigma extra) + dx ≤ (x : ℤ) ∧
          (x : ℤ) < pyInt (expandLeftQ dx sigma extra) + dx + image.width ∧
          pyInt (expandLeftQ dy sigma extra) + dy ≤ (y : ℤ) ∧
          (y : ℤ) < pyInt (expandLeftQ dy sigma extra) + dy + image.height then
        blendL 0
          (((convertRGBA image).px ((x : ℤ) - (pyInt (expandLeftQ dx sigma extra) + dx)).toNat
              ((y : ℤ) - (pyInt (expandLeftQ dy sigma extra) + dy)).toNat).a)
          (((convertRGBA image).px ((x : ℤ) - (pyInt (expandLeftQ dx sigma extra) + dx)).toNat
              ((y : ℤ) - (pyInt (expandLeftQ dy sigma extra) + dy)).toNat).a)
      else 0) ∧
    (∀ s m : ℕ, blendL 0 s m = muldiv255 s m) ∧
    blendL 0 0 0 = 0 ∧ blendL 0 255 255 = 255 :=
  ⟨rfl, blendL_zero_dst, by decide, by decide⟩

/-- Counterexample for C6 as stated: a source coverage of 128 is *not*
copied unchanged — the self-masked paste blends it to
`MULDIV255(128, 128) = 64`. -/
theorem shadow_mask_blend_cx :
    (shadowMaskPre (convertRGBA (constImg Mode.RGBA 1 1 ⟨0, 0, 0, 128⟩)) 0 0 0 0).px 0 0 = 64 ∧
    ((convertRGBA (constImg Mode.RGBA 1 1 ⟨0, 0, 0, 128⟩)).px 0 0).a = 128 ∧
    (64 : ℕ) ≠ 128 := by
  decide

/-- **C8**: in the border-mask construction the dilated band dominates the
alpha band, both stay in `[0, 255]`, and the `ImageChops.subtract` is the
saturating difference — never negative, never above 255. -/
theorem border_mask_saturates (image : Img) (b : ℕ) (hwf : (convertRGBA image).Wf)
    (x y : ℕ) :
    (alphaOf (convertRGBA image) b).px x y
        ≤ (dilate (alphaOf (convertRGBA image) b) b).px x y ∧
    (dilate (alphaOf (convertRGBA image) b) b).px x y ≤ 255 ∧
    (borderMaskOf (convertRGBA image) b).px x y =
      (dilate (alphaOf (convertRGBA image) b) b).px x y
        - (alphaOf (convertRGBA image) b).px x y ∧
    (borderMaskOf (convertRGBA image) b).px x y ≤ 255 := by
  have hA : ∀ u v : ℕ, (alphaOf (convertRGBA image) b).px u v ≤ 255 :=
    alphaOf_le _ _ hwf
  have hD : (dilate (alphaOf (convertRGBA image) b) b).px x y ≤ 255 :=
    dilate_le _ b (fun u _ v _ => hA u v) x y
  have hAD : (alphaOf (convertRGBA image) b).px x y
      ≤ (dilate (alphaOf (convertRGBA image) b) b).px x y := by
    by_cases hin : x < (alphaOf (convertRGBA image) b).width ∧
        y < (alphaOf (convertRGBA image) b).height
    · exact le_dilate _ b x y hin.1 hin.2
    · have h0 : (alphaOf (convertRGBA image) b).px x y = 0 :=
        alphaOf_outside (convertRGBA image) b x y hin
      rw [h0]
      omega
  have hM : (borderMaskOf (convertRGBA image) b).px x y =
      (dilate (alphaOf (convertRGBA image) b) b).px x y
        - (alphaOf (convertRGBA image) b).px x y := by
    show clampByte (((dilate (alphaOf (convertRGBA image) b) b).px x y : ℤ)
        - ((alphaOf (convertRGBA image) b).px x y : ℤ)) = _
    rw [clampByte_of_mem (by omega) (by omega)]
    omega
  exact ⟨hAD, hD, hM, by rw [hM]; omega⟩

/-- Witness for C8 on a concrete half-covered pixel. -/
theorem border_mask_saturates_witness :
    (convertRGBA (constImg Mode.RGBA 1 1 ⟨1, 2, 3, 200⟩)).Wf ∧
    ((alphaOf (convertRGBA (constImg Mode.RGBA 1 1 ⟨1, 2, 3, 200⟩)) 1).px 0 0
        ≤ (dilate (alphaOf (convertRGBA (constImg Mode.RGBA 1 1 ⟨1, 2, 3, 200⟩)) 1) 1).px 0 0 ∧
      (dilate (alphaOf (convertRGBA (constImg Mode.RGBA 1 1 ⟨1, 2, 3, 200⟩)) 1) 1).px 0 0 ≤ 255 ∧
      (borderMaskOf (convertRGBA (constImg Mode.RGBA 1 1 ⟨1, 2, 3, 200⟩)) 1).px 0 0 =
        (dilate (alphaOf (convertRGBA (constImg Mode.RGBA 1 1 ⟨1, 2, 3, 200⟩)) 1) 1).px 0 0
          - (alphaOf (convertRGBA (constImg Mode.RGBA 1 1 ⟨1, 2, 3, 200⟩)) 1).px 0 0 ∧
      (borderMaskOf (convertRGBA (constImg Mode.RGBA 1 1 ⟨1, 2, 3, 200⟩)) 1).px 0 0 ≤ 255) :=
  ⟨by decide, border_mask_saturates (constImg Mode.RGBA 1 1 ⟨1, 2, 3, 200⟩) 1 (by decide) 0 0⟩

/-- **C9 (amended)**: `add_shadow_no_cutoff` performs no validation of
`sigma`; whenever the computed canvas dimensions are non-negative (which
holds for any negative `sigma` small enough in magnitude) it returns a
buffer instead of failing. -/
theorem shadow_no_sigma_guard (image : Img) (c : Pix) (dx dy : ℤ) (sigma : ℚ)
    (extra : ℤ) (blur : Mask → Mask)
    (hW : 0 ≤ shadowNewW image.width dx sigma extra)
    (hH : 0 ≤ shadowNewH image.height dy sigma extra) :
    ∃ out, add_shadow_no_cutoff image c dx dy sigma extra blur = Except.ok out ∧
      out.width = (shadowNewW image.width dx sigma extra).toNat ∧
      out.height = (shadowNewH image.height dy sigma extra).toNat := by
  unfold add_shadow_no_cutoff
  rw [if_neg (by
    simp only [convertRGBA_width, convertRGBA_height]
    push_neg
    constructor <;> omega)]
  exact ⟨_, rfl, rfl, rfl⟩

/-- Counterexample for C9 as stated: with `sigma = -5` the call does not
fail with any error — it returns a 15×15 buffer (the negative sigma simply
shrinks the padding arithmetic). -/
theorem shadow_negative_sigma_cx :
    (add_shadow_no_cutoff (constImg Mode.RGBA 20 20 ⟨1, 2, 3, 255⟩) ⟨0, 0, 0, 100⟩
        0 0 (-5 : ℚ) 0 id).map Img.width = Except.ok 15 := by
  decide

/-- Witness for C9 (amended) at `sigma = -5`. -/
theorem shadow_no_sigma_guard_witness :
    0 ≤ shadowNewW 20 0 (-5 : ℚ) 0 ∧ 0 ≤ shadowNewH 20 0 (-5 : ℚ) 0 ∧
    ∃ out, add_shadow_no_cutoff (constImg Mode.RGBA 20 20 ⟨1, 2, 3, 255⟩) ⟨0, 0, 0, 100⟩
        0 0 (-5 : ℚ) 0 id = Except.ok out ∧
      out.width = (shadowNewW 20 0 (-5 : ℚ) 0).toNat ∧
      out.height = (shadowNewH 20 0 (-5 : ℚ) 0).toNat :=
  ⟨by decide, by decide,
    shadow_no_sigma_guard (constImg Mode.RGBA 20 20 ⟨1, 2, 3, 255⟩) ⟨0, 0, 0, 100⟩
      0 0 (-5) 0 id (by decide) (by decide)⟩

end ImageManipulation

namespace ImageManipulation

theorem shadowNewH_eq_shadowNewW (h : ℕ) (d : ℤ) (s : ℚ) (e : ℤ) :
    shadowNewH h d s e = shadowNewW h d s e :=
  rfl

/-- **C1 (amended)**: for non-negative offsets, sigma and padding,
`add_shadow_no_cutoff` succeeds and its canvas dimensions are
`int(w + expandLeft + expandRight)` and `int(h + expandTop + expandBottom)`
— both *truncated* (floored) to integers, like the placement offsets, not
rounded up — with the original pasted at `(int(expandLeft), int(expandTop))`. -/
theorem shadow_canvas_sizing (image : Img) (c : Pix) (dx dy : ℤ) (sigma : ℚ)
    (extra : ℤ) (blur : Mask → Mask) (_hdx : 0 ≤ dx) (_hdy : 0 ≤ dy)
    (hs : 0 ≤ sigma) (he : 0 ≤ extra) :
    ∃ out, add_shadow_no_cutoff image c dx dy sigma extra blur = Except.ok out ∧
      (out.width : ℤ) =
        ⌊(image.width : ℚ) + expandLeftQ dx sigma extra + expandRightQ dx sigma extra⌋ ∧
      (out.height : ℤ) =
        ⌊(image.height : ℚ) + expandLeftQ dy sigma extra + expandRightQ dy sigma extra⌋ ∧
      ∀ x < image.width, ∀ y < image.height,
        (shadowCanvasOf (convertRGBA image) dx dy sigma extra).px
            (x + (⌊expandLeftQ dx sigma extra⌋).toNat)
            (y + (⌊expandLeftQ dy sigma extra⌋).toNat) = (convertRGBA image).px x y := by
  obtain ⟨hWf, hWn⟩ := shadowNewW_eq_floor image.width dx sigma extra hs he
  have hH := shadowNewW_eq_floor image.height dy sigma extra hs he
  rw [← shadowNewH_eq_shadowNewW] at hH
  obtain ⟨hHf, hHn⟩ := hH
  unfold add_shadow_no_cutoff
  rw [if_neg (by
    simp only [convertRGBA_width, convertRGBA_height]
    push_neg
    exact ⟨by omega, by omega⟩)]
  refine ⟨_, rfl, ?_, ?_, ?_⟩
  · show (((shadowNewW (convertRGBA image).width dx sigma extra).toNat : ℕ) : ℤ) = _
    simp only [convertRGBA_width]
    rw [Int.toNat_of_nonneg hWn, hWf]
  · show (((shadowNewH (convertRGBA image).height dy sigma extra).toNat : ℕ) : ℤ) = _
    simp only [convertRGBA_height]
    rw [Int.toNat_of_nonneg hHn, hHf]
  · intro x hx y hy
    unfold shadowCanvasOf
    have hfl : pyInt (expandLeftQ dx sigma extra) = ⌊expandLeftQ dx sigma extra⌋ :=
      pyInt_of_nonneg (expandLeftQ_nonneg dx sigma extra he)
    have hft : pyInt (expandLeftQ dy sigma extra) = ⌊expandLeftQ dy sigma extra⌋ :=
      pyInt_of_nonneg (expandLeftQ_nonneg dy sigma extra he)
    rw [hfl, hft]
    exact paste_px_int _ _ _ _
      (Int.le_floor.mpr (by exact_mod_cast expandLeftQ_nonneg dx sigma extra he))
      (Int.le_floor.mpr (by exact_mod_cast expandLeftQ_nonneg dy sigma extra he))
      x y hx hy

/-- Counterexample for C1 as stated: with `sigma = 9/4` the padded width
`20 + 2.25 + 2.25 = 24.5` is truncated by `int(...)` to 24; rounding up as
the claim states would give 25. -/
theorem shadow_width_truncates_cx :
    (add_shadow_no_cutoff (constImg Mode.RGBA 20 20 ⟨1, 2, 3, 255⟩) ⟨0, 0, 0, 100⟩
        0 0 (9/4 : ℚ) 0 id).map Img.width = Except.ok 24 ∧
    ⌈((20 : ℕ) : ℚ) + expandLeftQ 0 (9/4 : ℚ) 0 + expandRightQ 0 (9/4 : ℚ) 0⌉ = 25 ∧
    (24 : ℤ) ≠ 25 := by
  refine ⟨by decide, by decide, by decide⟩

/-- Witness for C1 (amended): scenario C of the specification — a 20×20
image with offset (10,10), sigma 15, no extra padding gives width exactly
60. -/
theorem shadow_canvas_sizing_witness :
    (0 : ℤ) ≤ 10 ∧ (0 : ℚ) ≤ 15 ∧ (0 : ℤ) ≤ 0 ∧
    (∃ out, add_shadow_no_cutoff (constImg Mode.RGBA 20 20 ⟨1, 2, 3, 255⟩) ⟨0, 0, 0, 100⟩
        10 10 15 0 id = Except.ok out ∧
      (out.width : ℤ) = ⌊((20 : ℕ) : ℚ) + expandLeftQ 10 15 0 + expandRightQ 10 15 0⌋ ∧
      (out.height : ℤ) = ⌊((20 : ℕ) : ℚ) + expandLeftQ 10 15 0 + expandRightQ 10 15 0⌋ ∧
      ∀ x < 20, ∀ y < 20,
        (shadowCanvasOf (convertRGBA (constImg Mode.RGBA 20 20 ⟨1, 2, 3, 255⟩)) 10 10 15 0).px
            (x + (⌊expandLeftQ 10 15 0⌋).toNat) (y + (⌊expandLeftQ 10 15 0⌋).toNat)
          = (convertRGBA (constImg Mode.RGBA 20 20 ⟨1, 2, 3, 255⟩)).px x y) ∧
    ⌊((20 : ℕ) : ℚ) + expandLeftQ 10 15 0 + expandRightQ 10 15 0⌋ = 60 :=
  ⟨by decide, by decide, by decide,
    shadow_canvas_sizing (constImg Mode.RGBA 20 20 ⟨1, 2, 3, 255⟩) ⟨0, 0, 0, 100⟩
      10 10 15 0 id (by decide) (by decide) (by decide) (by decide),
    by decide⟩

end ImageManipulation

namespace ImageManipulation

/-- **C7**: `add_sharp_border` composites the expanded pasted buffer (as
Porter-Duff foreground) over the border layer, and `add_shadow_no_cutoff`
composites the pasted canvas over the shadow layer; wherever the foreground
is fully opaque the output pixel is exactly the foreground pixel, so border
and shadow are hidden beneath opaque content. -/
theorem composite_fg_over_bg (image : Img) (c shc : Pix) (width dx dy : ℤ)
    (sigma : ℚ) (extra : ℤ) (soft blur : Mask → Mask)
    (hwf : (convertRGBA image).Wf) (hw : 0 < width) :
    (add_sharp_border image c width soft =
        alphaComposite (borderLayerOf (convertRGBA image) c width.toNat soft)
          (expandedOf (convertRGBA image) width.toNat)) ∧
    (∀ x y : ℕ, ((expandedOf (convertRGBA image) width.toNat).px x y).a = 255 →
        (add_sharp_border image c width soft).px x y
          = (expandedOf (convertRGBA image) width.toNat).px x y) ∧
    (∀ out, add_shadow_no_cutoff image shc dx dy sigma extra blur = Except.ok out →
        out = alphaComposite (shadowLayerOf (convertRGBA image) shc dx dy sigma extra blur)
            (shadowCanvasOf (convertRGBA image) dx dy sigma extra) ∧
        ∀ x y : ℕ, ((shadowCanvasOf (convertRGBA image) dx dy sigma extra).px x y).a = 255 →
          out.px x y = (shadowCanvasOf (convertRGBA image) dx dy sigma extra).px x y) := by
  have hexp := expandedOf_wfAll (convertRGBA image) width.toNat hwf
  have hcan := shadowCanvasOf_wfAll (convertRGBA image) dx dy sigma extra hwf
  have hborder : add_sharp_border image c width soft =
      alphaComposite (borderLayerOf (convertRGBA image) c width.toNat soft)
        (expandedOf (convertRGBA image) width.toNat) := by
    unfold add_sharp_border
    rw [if_neg (by omega)]
  refine ⟨hborder, ?_, ?_⟩
  · intro x y ha
    rw [hborder]
    show overPix _ _ = _
    exact overPix_fgWf _ _ (hexp x y) ha
  · intro out hout
    have hval : out = alphaComposite
        (shadowLayerOf (convertRGBA image) shc dx dy sigma extra blur)
        (shadowCanvasOf (convertRGBA image) dx dy sigma extra) := by
      unfold add_shadow_no_cutoff at hout
      by_cases hg : shadowNewW (convertRGBA image).width dx sigma extra < 0 ∨
          shadowNewH (convertRGBA image).height dy sigma extra < 0
      · rw [if_pos hg] at hout
        exact Except.noConfusion hout
      · rw [if_neg hg] at hout
        exact (Except.ok.inj hout).symm
    refine ⟨hval, ?_⟩
    intro x y ha
    rw [hval]
    show overPix _ _ = _
    exact overPix_fgWf _ _ (hcan x y) ha

/-- Witness for C7: a 5×5 opaque square with border width 2; the exact
centre pixel of the pasted region retains the original colour. -/
theorem composite_fg_over_bg_witness :
    (convertRGBA (constImg Mode.RGBA 5 5 ⟨9, 8, 7, 255⟩)).Wf ∧ (0 : ℤ) < 2 ∧
    ((add_sharp_border (constImg Mode.RGBA 5 5 ⟨9, 8, 7, 255⟩) ⟨255, 0, 0, 255⟩ 2 id =
        alphaComposite
          (borderLayerOf (convertRGBA (constImg Mode.RGBA 5 5 ⟨9, 8, 7, 255⟩)) ⟨255, 0, 0, 255⟩ 2 id)
          (expandedOf (convertRGBA (constImg Mode.RGBA 5 5 ⟨9, 8, 7, 255⟩)) 2)) ∧
      (∀ x y : ℕ,
          ((expandedOf (convertRGBA (constImg Mode.RGBA 5 5 ⟨9, 8, 7, 255⟩)) 2).px x y).a = 255 →
          (add_sharp_border (constImg Mode.RGBA 5 5 ⟨9, 8, 7, 255⟩) ⟨255, 0, 0, 255⟩ 2 id).px x y
            = (expandedOf (convertRGBA (constImg Mode.RGBA 5 5 ⟨9, 8, 7, 255⟩)) 2).px x y) ∧
      (∀ out, add_shadow_no_cutoff (constImg Mode.RGBA 5 5 ⟨9, 8, 7, 255⟩) ⟨0, 0, 0, 100⟩
            1 1 1 0 id = Except.ok out →
          out = alphaComposite
              (shadowLayerOf (convertRGBA (constImg Mode.RGBA 5 5 ⟨9, 8, 7, 255⟩)) ⟨0, 0, 0, 100⟩ 1 1 1 0 id)
              (shadowCanvasOf (convertRGBA (constImg Mode.RGBA 5 5 ⟨9, 8, 7, 255⟩)) 1 1 1 0) ∧
          ∀ x y : ℕ,
            ((shadowCanvasOf (convertRGBA (constImg Mode.RGBA 5 5 ⟨9, 8, 7, 255⟩)) 1 1 1 0).px x y).a = 255 →
            out.px x y
              = (shadowCanvasOf (convertRGBA (constImg Mode.RGBA 5 5 ⟨9, 8, 7, 255⟩)) 1 1 1 0).px x y)) ∧
    (add_sharp_border (constImg Mode.RGBA 5 5 ⟨9, 8, 7, 255⟩) ⟨255, 0, 0, 255⟩ 2 id).px 4 4
      = ⟨9, 8, 7, 255⟩ :=
  ⟨by decide, by decide,
    composite_fg_over_bg (constImg Mode.RGBA 5 5 ⟨9, 8, 7, 255⟩) ⟨255, 0, 0, 255⟩ ⟨0, 0, 0, 100⟩
      2 1 1 1 0 id id (by decide) (by decide),
    by decide⟩

end ImageManipulation

namespace ImageManipulation

/-- **C4**: any pixel where the border layer has nonzero alpha lies within
Chebyshev distance `b + 1` of the silhouette (nonzero alpha of the expanded
canvas) and within distance 1 of a non-fully-opaque pixel — i.e. the ring
coverage vanishes strictly inside the opaque region and strictly beyond `b`
outside the silhouette, up to the 1-pixel tolerance the claim grants for
the softening blur (`hsoft` states that the blur spreads support by at most
one pixel). -/
theorem border_ring_containment (image : Img) (c : Pix) (width : ℤ)
    (soft : Mask → Mask) (hwf : (convertRGBA image).Wf) (_hw : 0 < width)
    (hsoft : ∀ p : ℕ × ℕ,
      (soft (borderMaskOf (convertRGBA image) width.toNat)).px p.1 p.2 ≠ 0 →
      ∃ q : ℕ × ℕ, chebWithin 1 p q ∧
        (borderMaskOf (convertRGBA image) width.toNat).px q.1 q.2 ≠ 0)
    (p : ℕ × ℕ)
    (hnz : ((borderLayerOf (convertRGBA image) c width.toNat soft).px p.1 p.2).a ≠ 0) :
    (∃ q : ℕ × ℕ, chebWithin (width.toNat + 1) p q ∧
        (alphaOf (convertRGBA image) width.toNat).px q.1 q.2 ≠ 0) ∧
    (∃ q : ℕ × ℕ, chebWithin 1 p q ∧
        (alphaOf (convertRGBA image) width.toNat).px q.1 q.2 ≠ 255) := by
  have hft : ((borderLayerOf (convertRGBA image) c width.toNat soft).px p.1 p.2).a
      = (soft (borderMaskOf (convertRGBA image) width.toNat)).px p.1 p.2 := rfl
  rw [hft] at hnz
  obtain ⟨q1, hq1, hm1⟩ := hsoft p hnz
  have hAle : ∀ u v : ℕ, (alphaOf (convertRGBA image) width.toNat).px u v ≤ 255 :=
    alphaOf_le _ _ hwf
  have hDle : (dilate (alphaOf (convertRGBA image) width.toNat) width.toNat).px q1.1 q1.2 ≤ 255 :=
    dilate_le _ _ (fun u _ v _ => hAle u v) q1.1 q1.2
  have hlt : (alphaOf (convertRGBA image) width.toNat).px q1.1 q1.2
      < (dilate (alphaOf (convertRGBA image) width.toNat) width.toNat).px q1.1 q1.2 := by
    by_contra hcon
    push_neg at hcon
    refine hm1 ?_
    show clampByte (((dilate (alphaOf (convertRGBA image) width.toNat) width.toNat).px q1.1 q1.2 : ℤ)
        - ((alphaOf (convertRGBA image) width.toNat).px q1.1 q1.2 : ℤ)) = 0
    apply clampByte_nonpos
    omega
  constructor
  · have hdnz : (dilate (alphaOf (convertRGBA image) width.toNat) width.toNat).px q1.1 q1.2 ≠ 0 := by
      omega
    obtain ⟨q2, hq2, _, _, hpx2⟩ := dilate_ne_zero _ _ q1.1 q1.2 hdnz
    refine ⟨q2, ?_, hpx2⟩
    unfold chebWithin at hq1 hq2 ⊢
    dsimp only at hq1 hq2 ⊢
    omega
  · exact ⟨q1, hq1, by omega⟩

/-- Witness for C4: a single opaque pixel with border width 1; the canvas
pixel at (0,0) carries border coverage and the theorem locates the
silhouette within distance 2 and a transparent pixel within distance 1. -/
theorem border_ring_containment_witness :
    (convertRGBA (constImg Mode.RGBA 1 1 ⟨1, 2, 3, 255⟩)).Wf ∧ (0 : ℤ) < 1 ∧
    ((borderLayerOf (convertRGBA (constImg Mode.RGBA 1 1 ⟨1, 2, 3, 255⟩)) ⟨255, 0, 0, 255⟩ 1 id).px 0 0).a ≠ 0 ∧
    ((∃ q : ℕ × ℕ, chebWithin 2 (0, 0) q ∧
        (alphaOf (convertRGBA (constImg Mode.RGBA 1 1 ⟨1, 2, 3, 255⟩)) 1).px q.1 q.2 ≠ 0) ∧
      (∃ q : ℕ × ℕ, chebWithin 1 (0, 0) q ∧
        (alphaOf (convertRGBA (constImg Mode.RGBA 1 1 ⟨1, 2, 3, 255⟩)) 1).px q.1 q.2 ≠ 255)) :=
  ⟨by decide, by decide, by decide,
    border_ring_containment (constImg Mode.RGBA 1 1 ⟨1, 2, 3, 255⟩) ⟨255, 0, 0, 255⟩ 1 id
      (by decide) (by decide) (fun p h => ⟨p, chebWithin_refl 1 p, h⟩) (0, 0) (by decide)⟩

end ImageManipulation

namespace ImageManipulation

/-- **C10**: each effect is a deterministic function of the pixel content
and parameters — pixel-identical inputs give pixel-identical outputs (for
the fallible shadow, identical success/failure with pixel-identical
buffers).  The blur parameters are the same library functions in both
invocations, and all reads are confined to in-range source pixels, so no
out-of-range garbage can leak into the result. -/
theorem effects_deterministic (i j : Img) (h : i.EqPix j) (radius width : ℤ)
    (bg c shc : Pix) (dx dy : ℤ) (sigma : ℚ) (extra : ℤ) (soft blur : Mask → Mask) :
    (round_corners_no_cutoff i radius bg).EqPix (round_corners_no_cutoff j radius bg) ∧
    (add_sharp_border i c width soft).EqPix (add_sharp_border j c width soft) ∧
    exceptEqPix (add_shadow_no_cutoff i shc dx dy sigma extra blur)
      (add_shadow_no_cutoff j shc dx dy sigma extra blur) := by
  have hc := convert_eqPix h
  obtain ⟨hm0, hw0, hh0, hp0⟩ := h
  obtain ⟨_, hcw, hch, hcp⟩ := hc
  refine ⟨?_, ?_, ?_⟩
  · by_cases hr : radius ≤ 0
    · unfold round_corners_no_cutoff
      rw [if_pos hr, if_pos hr]
      exact ⟨rfl, hcw, hch, hcp⟩
    · unfold round_corners_no_cutoff
      rw [if_neg hr, if_neg hr]
      have h1 : roundCanvasOf (convertRGBA i) radius.toNat bg =
          roundCanvasOf (convertRGBA j) radius.toNat bg :=
        roundCanvasOf_congr hcw hch hcp radius.toNat bg
      rw [h1, hcw, hch]
      exact eqPix_refl _
  · by_cases hb : width ≤ 0
    · unfold add_sharp_border
      rw [if_pos hb, if_pos hb]
      exact ⟨hm0, hw0, hh0, hp0⟩
    · unfold add_sharp_border
      rw [if_neg hb, if_neg hb]
      have h1 : expandedOf (convertRGBA i) width.toNat
          = expandedOf (convertRGBA j) width.toNat :=
        expandedOf_congr hcw hch hcp width.toNat
      have h2 : borderMaskOf (convertRGBA i) width.toNat
          = borderMaskOf (convertRGBA j) width.toNat := by
        unfold borderMaskOf alphaOf
        rw [h1]
      have h3 : borderLayerOf (convertRGBA i) c width.toNat soft
          = borderLayerOf (convertRGBA j) c width.toNat soft := by
        unfold borderLayerOf
        rw [hcw, hch, h2]
      rw [h1, h3]
      exact eqPix_refl _
  · unfold add_shadow_no_cutoff
    rw [hcw, hch]
    by_cases hg : shadowNewW (convertRGBA j).width dx sigma extra < 0 ∨
        shadowNewH (convertRGBA j).height dy sigma extra < 0
    · rw [if_pos hg, if_pos hg]
      exact rfl
    · rw [if_neg hg, if_neg hg]
      have h1 : shadowCanvasOf (convertRGBA i) dx dy sigma extra
          = shadowCanvasOf (convertRGBA j) dx dy sigma extra :=
        shadowCanvasOf_congr hcw hch hcp dx dy sigma extra
      have h2 : shadowMaskPre (convertRGBA i) dx dy sigma extra
          = shadowMaskPre (convertRGBA j) dx dy sigma extra :=
        shadowMaskPre_congr hcw hch hcp dx dy sigma extra
      have h3 : shadowLayerOf (convertRGBA i) shc dx dy sigma extra blur
          = shadowLayerOf (convertRGBA j) shc dx dy sigma extra blur := by
        unfold shadowLayerOf
        rw [hcw, hch, h2]
      show Img.EqPix _ _
      rw [h1, h3]
      exact eqPix_refl _

/-- Witness for C10: two rasters that agree on every in-range pixel but
have different pixel functions outside the canvas produce pixel-identical
outputs under all three effects. -/
theorem effects_deterministic_witness :
    imgW1.EqPix imgW2 ∧
    ((round_corners_no_cutoff imgW1 3 ⟨0, 0, 0, 0⟩).EqPix
        (round_corners_no_cutoff imgW2 3 ⟨0, 0, 0, 0⟩) ∧
      (add_sharp_border imgW1 ⟨0, 0, 0, 255⟩ 2 id).EqPix
        (add_sharp_border imgW2 ⟨0, 0, 0, 255⟩ 2 id) ∧
      exceptEqPix (add_shadow_no_cutoff imgW1 ⟨0, 0, 0, 100⟩ 1 1 2 0 id)
        (add_shadow_no_cutoff imgW2 ⟨0, 0, 0, 100⟩ 1 1 2 0 id)) :=
  ⟨by decide,
    effects_deterministic imgW1 imgW2 (by decide) 3 2 ⟨0, 0, 0, 0⟩ ⟨0, 0, 0, 255⟩
      ⟨0, 0, 0, 100⟩ 1 1 2 0 id id⟩

end ImageManipulation
